import Mathlib

/-!
Formal model of the boolean/binary sub-solver of the witness-solving
engine (`crates/acvm/src/pwg/binary.rs`).

Field elements are modelled as `ZMod modulus` for the concrete BN254
scalar-field modulus; the arbitrary-precision `BigUint` values obtained
from `FieldElement::to_bytes` are modelled as `ZMod.val`, the canonical
representative in `[0, modulus)`.  The `HashSet`, `HashMap` and
`BTreeMap` containers are modelled as lists with first-match lookup,
where insertion prepends (so a later insertion shadows an earlier one,
matching the observable get/insert behaviour of the Rust containers).
-/

/-- The field modulus used by `FieldElement::modulus()` (BN254 scalar field). -/
def modulus : ℕ := 21888242871839275222246405745257275088548364400416034343698204186575808495617

/-- `FieldElement`. -/
abbrev F : Type := ZMod modulus

/-- `Witness`: an opaque integer identifier for a circuit variable. -/
abbrev Witness : Type := ℕ

/-- First-match lookup in an association list; models `HashMap::get`
and `BTreeMap::get`. -/
def alist_get {α : Type} : List (ℕ × α) → ℕ → Option α
  | [], _ => none
  | (k, v) :: rest, w => if w = k then some v else alist_get rest w

/-- Membership test on a list of naturals; models `HashSet::contains`. -/
def memN (w : ℕ) : List ℕ → Bool
  | [] => false
  | x :: rest => if w = x then true else memN w rest

/-- Idempotent set insertion; models `HashSet::insert`. -/
def insertSet (w : ℕ) (l : List ℕ) : List ℕ :=
  if memN w l then l else w :: l

/-- `Expression`: Σ c·w·w' (mul terms) + Σ c·w (linear terms) + q_c. -/
structure Expression where
  mul_terms : List (F × Witness × Witness)
  linear_combinations : List (F × Witness)
  q_c : F
  deriving DecidableEq

/-- The `Directive` opcode variants relevant to the sub-solver. -/
inductive DirectiveK : Type where
  | Invert (x result : Witness)
  | OtherDirective
  deriving DecidableEq

/-- `Gate`: the opcode kinds; variants other than `Arithmetic` and
`Directive` are collapsed into `OtherGate`. -/
inductive Gate : Type where
  | Arithmetic (e : Expression)
  | Directive (d : DirectiveK)
  | OtherGate
  deriving DecidableEq

/-- `GateResolution`. -/
inductive GateResolution : Type where
  | Resolved
  | Skip
  | UnsupportedOpcode
  deriving DecidableEq

/-- `GateResolutionError`. -/
inductive GateResolutionError : Type where
  | UnsatisfiedConstrain
  deriving DecidableEq

/-- `WitnessMap` (`BTreeMap<Witness, FieldElement>`), modelled
observationally as an association list with shadowing insertion. -/
abbrev WitnessMap : Type := List (ℕ × F)

/-- `BTreeMap::insert`: a later insertion shadows earlier entries. -/
def winsert (w : Witness) (v : F) (m : WitnessMap) : WitnessMap :=
  (w, v) :: m

/-- The `BinarySolver` state: boolean set, inverse-pair map,
positive-bound map. -/
structure BinarySolver where
  binary_witness : List Witness
  invert_witness : List (Witness × Witness)
  positive_witness : List (Witness × ℕ)
  deriving DecidableEq

namespace BinarySolver

/-- `BinarySolver::new`. -/
def new : BinarySolver := ⟨[], [], []⟩

/-- `BinarySolver::is_boolean`. -/
def is_boolean (s : BinarySolver) (w : Witness) : Bool :=
  memN w s.binary_witness

/-- `BinarySolver::are_inverse`. -/
def are_inverse (s : BinarySolver) (w1 w2 : Witness) : Bool :=
  decide (alist_get s.invert_witness w1 = some w2) ||
    decide (alist_get s.invert_witness w2 = some w1)

/-- `BinarySolver::are_boolean`. -/
def are_boolean (s : BinarySolver) (w1 w2 : Witness) : Bool :=
  are_inverse s w1 w2 || (is_boolean s w1 && is_boolean s w2)

/-- `BinarySolver::get_max_value`. -/
def get_max_value (s : BinarySolver) (w : Witness) : Option ℕ :=
  if is_boolean s w then some 1 else alist_get s.positive_witness w

/-- The loop over `mul_terms` in `is_binary`: accumulate the coefficient
magnitudes while every pair of witnesses passes `are_boolean`. -/
def mulMax (s : BinarySolver) : List (F × Witness × Witness) → ℕ → Option ℕ
  | [], acc => some acc
  | (c, w1, w2) :: rest, acc =>
    if are_boolean s w1 w2 then mulMax s rest (acc + c.val) else none

/-- The loop over `linear_combinations` in `is_binary`: accumulate
coefficient times max value while every witness has a known max. -/
def linMax (s : BinarySolver) : List (F × Witness) → ℕ → Option ℕ
  | [], acc => some acc
  | (c, w) :: rest, acc =>
    match get_max_value s w with
    | some v => linMax s rest (acc + c.val * v)
    | none => none

/-- `BinarySolver::is_binary`: the accumulated bound (without the
constant) is compared against the modulus, then the constant's
representative is added to the returned bound. -/
def is_binary (s : BinarySolver) (g : Expression) : Option ℕ :=
  match mulMax s g.mul_terms 0 with
  | none => none
  | some m1 =>
    match linMax s g.linear_combinations m1 with
    | none => none
    | some mx => if mx > modulus then none else some (mx + g.q_c.val)

/-- The insertion loop of `solve_booleans`: give value 0 to the witness
of every linear term. -/
def assignZeros (lins : List (F × Witness)) (m : WitnessMap) : WitnessMap :=
  lins.foldl (fun acc t => winsert t.2 0 acc) m

/-- `BinarySolver::solve_inverse`.  The Rust routine takes the witness
map by mutable reference; the model returns the (result, updated map)
pair. -/
def solve_inverse (s : BinarySolver) (g : Expression) (m : WitnessMap) :
    Except GateResolutionError GateResolution × WitnessMap :=
  match g.mul_terms, g.linear_combinations with
  | [(_c, w1, w2)], [] =>
    if are_inverse s w1 w2 then
      if g.q_c = 0 then
        (Except.ok GateResolution.Resolved, winsert w2 0 (winsert w1 0 m))
      else if g.q_c = 1 then
        (Except.ok GateResolution.Skip, m)
      else
        (Except.error GateResolutionError.UnsatisfiedConstrain, m)
    else (Except.ok GateResolution.Skip, m)
  | _, _ => (Except.ok GateResolution.Skip, m)

/-- `BinarySolver::solve_booleans`. -/
def solve_booleans (s : BinarySolver) (g : Expression) (m : WitnessMap) :
    Except GateResolutionError GateResolution × WitnessMap :=
  match solve_inverse s g m with
  | (Except.error e, m1) => (Except.error e, m1)
  | (Except.ok GateResolution.Resolved, m1) => (Except.ok GateResolution.Resolved, m1)
  | (Except.ok _, m1) =>
    match is_binary s g with
    | some mx =>
      if mx < modulus then
        if g.q_c = 0 then
          (Except.ok GateResolution.Resolved, assignZeros g.linear_combinations m1)
        else
          (Except.error GateResolutionError.UnsatisfiedConstrain, m1)
      else (Except.ok GateResolution.Skip, m1)
    | none => (Except.ok GateResolution.Skip, m1)

/-- The loop of the `linear_combinations.len() > 2` branch of
`identify_booleans`: accumulate the bound of the known-max terms in
`max`, remember the first term with an unknown max in `x`, and break
with `x = none` at a second unknown term. -/
def scanLin (s : BinarySolver) :
    List (F × Witness) → ℕ → Option (F × Witness) → ℕ × Option (F × Witness)
  | [], acc, x => (acc, x)
  | (c, w) :: rest, acc, x =>
    match get_max_value s w with
    | some v => scanLin s rest (acc + v * c.val) x
    | none =>
      match x with
      | some _ => (acc, none)
      | none => scanLin s rest acc (some (c, w))

/-- The branch analysis of `identify_booleans`: returns the updated
state (the positive-bound insertion happens here) together with the
witness that the final step of `identify_booleans` marks boolean. -/
def ibStep (s : BinarySolver) (a : Expression) : BinarySolver × Option Witness :=
  match a.mul_terms, a.linear_combinations with
  | [(c0, w1, w2)], [(l0, lw)] =>
    if w1 = w2 ∧ w1 = lw ∧ a.q_c = 0 ∧ c0 + l0 = 0 then (s, some lw)
    else if are_boolean s w1 w2 then
      if a.q_c = 0 then
        if c0 + l0 = 0 then (s, some lw) else (s, none)
      else if c0 + a.q_c = 0 ∧ c0 = l0 then (s, some lw)
      else (s, none)
    else (s, none)
  | [], [(l0, lw0), (l1, lw1)] =>
    let z : Option Witness :=
      if is_boolean s lw0 ∧ ¬ is_boolean s lw1 = true then some lw1
      else if is_boolean s lw1 ∧ ¬ is_boolean s lw0 = true then some lw0
      else none
    if z.isSome then
      if a.q_c = 0 then
        if l0 + l1 = 0 then (s, z) else (s, none)
      else if a.q_c + l1 = 0 ∧ l0 = l1 then (s, some lw0)
      else (s, none)
    else (s, none)
  | [], lin =>
    if lin.length > 2 then
      match scanLin s lin (a.q_c.val) none with
      | (mx, some (ci, wi)) =>
        if mx < modulus ∧ ci = -1 then
          ({ s with positive_witness := (wi, mx) :: s.positive_witness }, none)
        else (s, some wi)
      | (_, none) => (s, none)
    else (s, none)
  | _, _ => (s, none)

/-- `BinarySolver::identify_booleans`: run the branch analysis, then
mark the selected witness (if any) as boolean. -/
def identify_booleans (s : BinarySolver) (a : Expression) : BinarySolver :=
  match ibStep s a with
  | (s1, some w) => { s1 with binary_witness := insertSet w s1.binary_witness }
  | (s1, none) => s1

/-- `BinarySolver::identify_binaries`. -/
def identify_binaries (s : BinarySolver) (g : Gate) : BinarySolver :=
  match g with
  | Gate.Directive (DirectiveK.Invert x result) =>
    { s with invert_witness := (x, result) :: s.invert_witness }
  | Gate.Arithmetic a => identify_booleans s a
  | _ => s

end BinarySolver

/-- Modelled from the spec: `ArithmeticSolver::evaluate`
(`crates/acvm/src/pwg/arithmetic.rs` is not part of the given sources).
Per spec §4.1 it substitutes every witness that already has a value in
the map, folds the resulting constants into `q_c`, and returns a
residual expression containing only still-unknown witnesses: a mul term
with both witnesses known folds into the constant, with one known it
becomes a linear term for the other, and a linear term with a known
witness folds into the constant. -/
def evaluate (e : Expression) (m : WitnessMap) : Expression :=
  let ms := e.mul_terms.foldl
    (fun (acc : List (F × Witness × Witness) × List (F × Witness) × F) t =>
      match alist_get m t.2.1, alist_get m t.2.2 with
      | some v1, some v2 => (acc.1, acc.2.1, acc.2.2 + t.1 * v1 * v2)
      | some v1, none => (acc.1, acc.2.1 ++ [(t.1 * v1, t.2.2)], acc.2.2)
      | none, some v2 => (acc.1, acc.2.1 ++ [(t.1 * v2, t.2.1)], acc.2.2)
      | none, none => (acc.1 ++ [t], acc.2.1, acc.2.2))
    ([], [], 0)
  let ls := e.linear_combinations.foldl
    (fun (acc : List (F × Witness) × F) t =>
      match alist_get m t.2 with
      | some v => (acc.1, acc.2 + t.1 * v)
      | none => (acc.1 ++ [t], acc.2))
    ([], 0)
  { mul_terms := ms.1
    linear_combinations := ms.2.1 ++ ls.1
    q_c := e.q_c + ms.2.2 + ls.2 }

namespace BinarySolver

/-- `BinarySolver::solve`: on an arithmetic gate, evaluate it against
the witness map, run `solve_booleans` on the residual, and run
`identify_booleans` on the residual; on any other gate, run
`identify_binaries` and skip. -/
def solve (s : BinarySolver) (g : Gate) (m : WitnessMap) :
    (Except GateResolutionError GateResolution × WitnessMap) × BinarySolver :=
  match g with
  | Gate.Arithmetic arith =>
    let partial_gate := evaluate arith m
    (solve_booleans s partial_gate m, identify_booleans s partial_gate)
  | _ => ((Except.ok GateResolution.Skip, m), identify_binaries s g)

end BinarySolver

/-- Spec-side sum of the magnitudes of the quadratic coefficients of an
expression (the first summand of the bound described for `is_binary`). -/
def quadMagSum (l : List (F × Witness × Witness)) : ℕ :=
  (l.map (fun t => t.1.val)).sum

/-- Spec-side sum of linear coefficients times the max values of their
witnesses (the second summand of the bound described for `is_binary`). -/
def linBoundSum (s : BinarySolver) (l : List (F × Witness)) : ℕ :=
  (l.map (fun t => t.1.val * ((BinarySolver.get_max_value s t.2).getD 0))).sum

/-- Spec-side sum, over the linear terms whose witness has a known max
value, of that max value times the coefficient magnitude (the bound
accumulated by the long-expression branch of `identify_booleans`). -/
def knownBoundSum (s : BinarySolver) (l : List (F × Witness)) : ℕ :=
  ((l.filter (fun t => (BinarySolver.get_max_value s t.2).isSome)).map
    (fun t => ((BinarySolver.get_max_value s t.2).getD 0) * t.1.val)).sum

open BinarySolver

instance exceptDecEq {ε α : Type} [DecidableEq ε] [DecidableEq α] :
    DecidableEq (Except ε α) := fun x y =>
  match x, y with
  | Except.ok a, Except.ok b =>
    if h : a = b then isTrue (by rw [h])
    else isFalse (fun hc => by cases hc; exact h rfl)
  | Except.error a, Except.error b =>
    if h : a = b then isTrue (by rw [h])
    else isFalse (fun hc => by cases hc; exact h rfl)
  | Except.ok _, Except.error _ => isFalse (fun hc => Except.noConfusion hc)
  | Except.error _, Except.ok _ => isFalse (fun hc => Except.noConfusion hc)

theorem assignZeros_lookup (lins : List (F × Witness)) (m : WitnessMap) (w : ℕ) :
    alist_get (assignZeros lins m) w =
      if w ∈ lins.map Prod.snd then some 0 else alist_get m w := by
  induction lins generalizing m with
  | nil => simp [assignZeros]
  | cons t rest ih =>
    have hstep : assignZeros (t :: rest) m = assignZeros rest (winsert t.2 0 m) := rfl
    rw [hstep, ih]
    by_cases hw : w ∈ rest.map Prod.snd
    · simp [hw]
    · by_cases h2 : w = t.2 <;> simp [hw, h2, winsert, alist_get]

/-- C1: if the expression is not resolved or rejected by the
inverse-pair path and `is_binary` classifies it with a bound strictly
below the field modulus, then `solve_booleans` with a zero constant
term assigns 0 to every witness of the linear combinations and returns
`Resolved` (leaving every other witness, in particular one appearing
only in mul terms, unassigned), and with a nonzero constant term
returns the `UnsatisfiedConstrain` error. -/
theorem C1_boolean_force_zero (s : BinarySolver) (e : Expression) (m : WitnessMap) (mx : ℕ)
    (hinv : solve_inverse s e m = (Except.ok GateResolution.Skip, m))
    (hbin : is_binary s e = some mx) (hlt : mx < modulus) :
    (e.q_c = 0 →
      solve_booleans s e m =
        (Except.ok GateResolution.Resolved, assignZeros e.linear_combinations m) ∧
      (∀ c w, (c, w) ∈ e.linear_combinations →
        alist_get (solve_booleans s e m).2 w = some 0) ∧
      (∀ w, w ∉ e.linear_combinations.map Prod.snd →
        alist_get (solve_booleans s e m).2 w = alist_get m w)) ∧
    (e.q_c ≠ 0 →
      solve_booleans s e m = (Except.error GateResolutionError.UnsatisfiedConstrain, m)) := by
  constructor
  · intro hq
    have hsb : solve_booleans s e m =
        (Except.ok GateResolution.Resolved, assignZeros e.linear_combinations m) := by
      simp [solve_booleans, hinv, hbin, hlt, hq]
    refine ⟨hsb, ?_, ?_⟩
    · intro c w hmem
      rw [hsb]
      have hw : w ∈ e.linear_combinations.map Prod.snd :=
        List.mem_map.mpr ⟨(c, w), hmem, rfl⟩
      simp [assignZeros_lookup, hw]
    · intro w hw
      rw [hsb]
      simp [assignZeros_lookup, hw]
  · intro hq
    simp [solve_booleans, hinv, hbin, hlt, hq]

theorem C1_boolean_force_zero_witness :
    alist_get (solve_booleans ⟨[1, 2], [], []⟩ ⟨[], [(1, 1), (1, 2)], 0⟩ []).2 1 = some 0 := by
  have h := C1_boolean_force_zero ⟨[1, 2], [], []⟩ ⟨[], [(1, 1), (1, 2)], 0⟩ [] 2
    (by decide) (by decide) (by decide)
  exact (h.1 rfl).2.1 1 1 (by decide)

/-- C3: an expression classified with bound exactly `modulus - 1` still
takes the force-to-zero shortcut (resolving with zeros, or reporting
`UnsatisfiedConstrain` when the constant is nonzero); an expression
whose classified bound is at least `modulus`, or whose classification
is unknown, makes `solve_booleans` return `Skip` from the bound path
with the witness map unchanged. -/
theorem C3_bound_edge (s : BinarySolver) (e : Expression) (m : WitnessMap)
    (hinv : solve_inverse s e m = (Except.ok GateResolution.Skip, m)) :
    (is_binary s e = some (modulus - 1) →
      (e.q_c = 0 → solve_booleans s e m =
        (Except.ok GateResolution.Resolved, assignZeros e.linear_combinations m)) ∧
      (e.q_c ≠ 0 → solve_booleans s e m =
        (Except.error GateResolutionError.UnsatisfiedConstrain, m))) ∧
    (∀ mx, is_binary s e = some mx → modulus ≤ mx →
      solve_booleans s e m = (Except.ok GateResolution.Skip, m)) ∧
    (is_binary s e = none →
      solve_booleans s e m = (Except.ok GateResolution.Skip, m)) := by
  refine ⟨?_, ?_, ?_⟩
  · intro hbin
    have hlt : modulus - 1 < modulus := by decide
    constructor
    · intro hq
      simp [solve_booleans, hinv, hbin, hlt, hq]
    · intro hq
      simp [solve_booleans, hinv, hbin, hlt, hq]
  · intro mx hbin hge
    have hlt : ¬ mx < modulus := Nat.not_lt.mpr hge
    simp [solve_booleans, hinv, hbin, hlt]
  · intro hbin
    simp [solve_booleans, hinv, hbin]

theorem C3_bound_edge_witness :
    solve_booleans new ⟨[], [], -1⟩ [] =
      (Except.error GateResolutionError.UnsatisfiedConstrain, []) := by
  have h := C3_bound_edge new ⟨[], [], -1⟩ [] (by decide)
  exact (h.1 (by decide)).2 (by decide)

/-- C7: on an expression with exactly one mul term whose witnesses are
a recorded inverse pair and no linear terms, `solve_inverse` assigns 0
to both witnesses and returns `Resolved` when the constant is zero, and
returns the `UnsatisfiedConstrain` error when the constant is neither
zero nor one; an expression not of this shape yields `Skip` with the
map unchanged. -/
theorem C7_solve_inverse_cases (s : BinarySolver) (e : Expression) (m : WitnessMap) :
    (∀ c w1 w2, e.mul_terms = [(c, w1, w2)] → e.linear_combinations = [] →
      are_inverse s w1 w2 = true →
      (e.q_c = 0 →
        solve_inverse s e m =
          (Except.ok GateResolution.Resolved, winsert w2 0 (winsert w1 0 m)) ∧
        alist_get (solve_inverse s e m).2 w1 = some 0 ∧
        alist_get (solve_inverse s e m).2 w2 = some 0) ∧
      (e.q_c ≠ 0 → e.q_c ≠ 1 →
        solve_inverse s e m = (Except.error GateResolutionError.UnsatisfiedConstrain, m))) ∧
    ((∀ c w1 w2, e.mul_terms = [(c, w1, w2)] → e.linear_combinations = [] →
        are_inverse s w1 w2 = false) →
      solve_inverse s e m = (Except.ok GateResolution.Skip, m)) := by
  constructor
  · intro c w1 w2 hmul hlin hai
    constructor
    · intro hq
      have hsi : solve_inverse s e m =
          (Except.ok GateResolution.Resolved, winsert w2 0 (winsert w1 0 m)) := by
        simp [solve_inverse, hmul, hlin, hai, hq]
      refine ⟨hsi, ?_, ?_⟩
      · rw [hsi]
        by_cases h12 : w1 = w2 <;> simp [winsert, alist_get, h12]
      · rw [hsi]
        simp [winsert, alist_get]
    · intro hq0 hq1
      simp [solve_inverse, hmul, hlin, hai, hq0, hq1]
  · intro hshape
    rcases e with ⟨mul, lin, qc⟩
    rcases mul with _ | ⟨⟨c, w1, w2⟩, mrest⟩
    · simp [solve_inverse]
    · rcases mrest with _ | ⟨t2, mrest2⟩
      · rcases lin with _ | ⟨l1, lrest⟩
        · have hai := hshape c w1 w2 rfl rfl
          simp [solve_inverse, hai]
        · simp [solve_inverse]
      · simp [solve_inverse]

theorem C7_solve_inverse_cases_witness :
    alist_get (solve_inverse ⟨[], [(1, 2)], []⟩ ⟨[(5, 1, 2)], [], 0⟩ []).2 2 = some 0 := by
  have h := C7_solve_inverse_cases ⟨[], [(1, 2)], []⟩ ⟨[(5, 1, 2)], [], 0⟩ []
  exact ((h.1 5 1 2 rfl rfl (by decide)).1 rfl).2.2

/-- C10: on every gate that is not an arithmetic gate, `solve` returns
`Ok(Skip)` with the witness map unchanged; an `Invert` directive adds
its pair to the inverse-pair map (making `are_inverse` true), and every
other such gate leaves the solver state unchanged. -/
theorem C10_non_arith_skip (s : BinarySolver) (g : Gate) (m : WitnessMap)
    (h : ∀ e, g ≠ Gate.Arithmetic e) :
    (solve s g m).1 = (Except.ok GateResolution.Skip, m) ∧
    (∀ x r, g = Gate.Directive (DirectiveK.Invert x r) →
      (solve s g m).2 = { s with invert_witness := (x, r) :: s.invert_witness } ∧
      are_inverse (solve s g m).2 x r = true) ∧
    ((∀ x r, g ≠ Gate.Directive (DirectiveK.Invert x r)) → (solve s g m).2 = s) := by
  cases g with
  | Arithmetic e => exact absurd rfl (h e)
  | Directive d =>
    cases d with
    | Invert x r =>
      refine ⟨rfl, ?_, ?_⟩
      · intro x' r' heq
        have hx : x = x' ∧ r = r' := by
          simpa [Gate.Directive.injEq, DirectiveK.Invert.injEq] using heq
        rcases hx with ⟨rfl, rfl⟩
        refine ⟨rfl, ?_⟩
        simp [solve, identify_binaries, are_inverse, alist_get]
      · intro hne
        exact absurd rfl (hne x r)
    | OtherDirective =>
      refine ⟨rfl, ?_, fun _ => rfl⟩
      intro x r heq
      simp at heq
  | OtherGate =>
    refine ⟨rfl, ?_, fun _ => rfl⟩
    intro x r heq
    simp at heq

theorem C10_non_arith_skip_witness :
    (solve new (Gate.Directive (DirectiveK.Invert 1 2)) []).1 =
      (Except.ok GateResolution.Skip, []) := by
  have h := C10_non_arith_skip new (Gate.Directive (DirectiveK.Invert 1 2)) []
    (fun _ he => Gate.noConfusion he)
  exact h.1

theorem memN_insertSet (w w' : ℕ) (l : List ℕ) (h : memN w l = true) :
    memN w (insertSet w' l) = true := by
  unfold insertSet
  split
  · exact h
  · by_cases hww : w = w' <;> simp [memN, hww, h]

theorem alist_get_cons_isSome {α : Type} (k : ℕ) (v : α) (l : List (ℕ × α)) (w : ℕ)
    (h : (alist_get l w).isSome = true) :
    (alist_get ((k, v) :: l) w).isSome = true := by
  by_cases hwk : w = k <;> simp [alist_get, hwk, h]

theorem ibStep_fst (s : BinarySolver) (a : Expression) :
    (ibStep s a).1 = s ∨
      ∃ wi B, (ibStep s a).1 = { s with positive_witness := (wi, B) :: s.positive_witness } := by
  unfold ibStep
  repeat' split
  all_goals first
    | exact Or.inl rfl
    | exact Or.inr ⟨_, _, rfl⟩

theorem identify_booleans_invert (s : BinarySolver) (a : Expression) :
    (identify_booleans s a).invert_witness = s.invert_witness := by
  have hs := ibStep_fst s a
  unfold identify_booleans
  rcases h : ibStep s a with ⟨s1, x⟩
  rw [h] at hs
  have hs1 : s1 = s ∨
      ∃ wi B, s1 = { s with positive_witness := (wi, B) :: s.positive_witness } := hs
  rcases x with _ | w
  · show s1.invert_witness = s.invert_witness
    rcases hs1 with h1 | ⟨wi, B, h1⟩ <;> rw [h1]
  · show ({ s1 with binary_witness := insertSet w s1.binary_witness }).invert_witness =
      s.invert_witness
    rcases hs1 with h1 | ⟨wi, B, h1⟩ <;> rw [h1]

theorem identify_booleans_binary_mono (s : BinarySolver) (a : Expression) (w : Witness)
    (hw : is_boolean s w = true) :
    is_boolean (identify_booleans s a) w = true := by
  have hs := ibStep_fst s a
  unfold identify_booleans
  rcases h : ibStep s a with ⟨s1, x⟩
  rw [h] at hs
  have hs1 : s1 = s ∨
      ∃ wi B, s1 = { s with positive_witness := (wi, B) :: s.positive_witness } := hs
  have hb : s1.binary_witness = s.binary_witness := by
    rcases hs1 with h1 | ⟨wi, B, h1⟩ <;> rw [h1]
  rcases x with _ | w'
  · show is_boolean s1 w = true
    simpa [is_boolean, hb] using hw
  · show memN w (insertSet w' s1.binary_witness) = true
    rw [hb]
    exact memN_insertSet w w' _ hw

theorem identify_booleans_positive_mono (s : BinarySolver) (a : Expression) (w : Witness)
    (hw : (alist_get s.positive_witness w).isSome = true) :
    (alist_get (identify_booleans s a).positive_witness w).isSome = true := by
  have hs := ibStep_fst s a
  unfold identify_booleans
  rcases h : ibStep s a with ⟨s1, x⟩
  rw [h] at hs
  have hs1 : s1 = s ∨
      ∃ wi B, s1 = { s with positive_witness := (wi, B) :: s.positive_witness } := hs
  have hp : (alist_get s1.positive_witness w).isSome = true := by
    rcases hs1 with h1 | ⟨wi, B, h1⟩
    · rw [h1]; exact hw
    · rw [h1]; exact alist_get_cons_isSome wi B _ w hw
  rcases x with _ | w' <;> exact hp

theorem identify_binaries_binary_mono (s : BinarySolver) (g : Gate) (w : Witness)
    (hw : is_boolean s w = true) :
    is_boolean (identify_binaries s g) w = true := by
  cases g with
  | Arithmetic a => exact identify_booleans_binary_mono s a w hw
  | Directive d =>
    cases d with
    | Invert x r => exact hw
    | OtherDirective => exact hw
  | OtherGate => exact hw

theorem identify_binaries_invert_mono (s : BinarySolver) (g : Gate) (w : Witness)
    (hw : (alist_get s.invert_witness w).isSome = true) :
    (alist_get (identify_binaries s g).invert_witness w).isSome = true := by
  cases g with
  | Arithmetic a =>
    have h1 : (identify_binaries s (Gate.Arithmetic a)).invert_witness = s.invert_witness := by
      show (identify_booleans s a).invert_witness = s.invert_witness
      exact identify_booleans_invert s a
    rw [h1]; exact hw
  | Directive d =>
    cases d with
    | Invert x r => exact alist_get_cons_isSome x r _ w hw
    | OtherDirective => exact hw
  | OtherGate => exact hw

theorem identify_binaries_positive_mono (s : BinarySolver) (g : Gate) (w : Witness)
    (hw : (alist_get s.positive_witness w).isSome = true) :
    (alist_get (identify_binaries s g).positive_witness w).isSome = true := by
  cases g with
  | Arithmetic a => exact identify_booleans_positive_mono s a w hw
  | Directive d =>
    cases d with
    | Invert x r => exact hw
    | OtherDirective => exact hw
  | OtherGate => exact hw

theorem solve_snd (s : BinarySolver) (g : Gate) (m : WitnessMap) :
    (solve s g m).2 = identify_binaries s g ∨
      ∃ a, g = Gate.Arithmetic a ∧ (solve s g m).2 = identify_booleans s (evaluate a m) := by
  cases g with
  | Arithmetic a => exact Or.inr ⟨a, rfl, rfl⟩
  | Directive d => exact Or.inl rfl
  | OtherGate => exact Or.inl rfl

/-- C6 (amended): across `solve`, `identify_booleans` and
`identify_binaries`, the three derived-fact stores never lose entries:
a boolean witness stays boolean, a witness with an inverse partner
keeps some partner, and a witness with a positive bound keeps some
bound.  (The counterexample shows that, unlike what the claim states,
the recorded partner itself can be replaced by a later insertion with
the same key.) -/
theorem C6_store_growth (s : BinarySolver) (g : Gate) (a : Expression) (m : WitnessMap)
    (w : Witness) :
    (is_boolean s w = true →
      is_boolean (identify_booleans s a) w = true ∧
      is_boolean (identify_binaries s g) w = true ∧
      is_boolean (solve s g m).2 w = true) ∧
    ((alist_get s.invert_witness w).isSome = true →
      (alist_get (identify_booleans s a).invert_witness w).isSome = true ∧
      (alist_get (identify_binaries s g).invert_witness w).isSome = true ∧
      (alist_get (solve s g m).2.invert_witness w).isSome = true) ∧
    ((alist_get s.positive_witness w).isSome = true →
      (alist_get (identify_booleans s a).positive_witness w).isSome = true ∧
      (alist_get (identify_binaries s g).positive_witness w).isSome = true ∧
      (alist_get (solve s g m).2.positive_witness w).isSome = true) := by
  refine ⟨?_, ?_, ?_⟩ <;> intro hw
  · refine ⟨identify_booleans_binary_mono s a w hw,
      identify_binaries_binary_mono s g w hw, ?_⟩
    rcases solve_snd s g m with h | ⟨a', _, h⟩ <;> rw [h]
    · exact identify_binaries_binary_mono s g w hw
    · exact identify_booleans_binary_mono s _ w hw
  · refine ⟨?_, identify_binaries_invert_mono s g w hw, ?_⟩
    · have h1 : (identify_booleans s a).invert_witness = s.invert_witness :=
        identify_booleans_invert s a
      rw [h1]; exact hw
    · rcases solve_snd s g m with h | ⟨a', _, h⟩ <;> rw [h]
      · exact identify_binaries_invert_mono s g w hw
      · have h1 : (identify_booleans s (evaluate a' m)).invert_witness = s.invert_witness :=
          identify_booleans_invert s _
        rw [h1]; exact hw
  · refine ⟨identify_booleans_positive_mono s a w hw,
      identify_binaries_positive_mono s g w hw, ?_⟩
    rcases solve_snd s g m with h | ⟨a', _, h⟩ <;> rw [h]
    · exact identify_binaries_positive_mono s g w hw
    · exact identify_booleans_positive_mono s _ w hw

theorem C6_store_growth_witness :
    is_boolean (identify_booleans ⟨[7], [], []⟩ ⟨[], [], 0⟩) 7 = true := by
  have h := C6_store_growth ⟨[7], [], []⟩ Gate.OtherGate ⟨[], [], 0⟩ [] 7
  exact (h.1 (by decide)).1

/-- C6 counterexample: two `Invert` directives with the same input
witness replace the recorded inverse partner (witness 1's partner
changes from 2 to 3), so a previously-recorded fact is changed, contrary
to the claim. -/
theorem C6_store_growth_counterexample :
    alist_get (identify_binaries new
      (Gate.Directive (DirectiveK.Invert 1 2))).invert_witness 1 = some 2 ∧
    alist_get (identify_binaries
      (identify_binaries new (Gate.Directive (DirectiveK.Invert 1 2)))
      (Gate.Directive (DirectiveK.Invert 1 3))).invert_witness 1 = some 3 := by
  decide

/-- C5 (amended): on an arithmetic gate, `solve` runs the fact-detection
step `identify_booleans` on the residual expression produced by
evaluating the gate against the witness map — not on the original
expression. -/
theorem C5_fact_detection_residual (s : BinarySolver) (a : Expression) (m : WitnessMap) :
    (solve s (Gate.Arithmetic a) m).2 = identify_booleans s (evaluate a m) := rfl

/-- C5 counterexample: for the gate `x·x - x = 0` with `x` already
assigned 1, the residual is a constant expression, so fact detection on
the residual records nothing, while fact detection on the original
expression would have recorded `x` as boolean — refuting the claim that
`solve` runs `identify_booleans` on the original expression. -/
theorem C5_fact_detection_counterexample :
    is_boolean (solve new (Gate.Arithmetic ⟨[(1, 1, 1)], [(-1, 1)], 0⟩) [(1, 1)]).2 1 = false ∧
    is_boolean (identify_booleans new ⟨[(1, 1, 1)], [(-1, 1)], 0⟩) 1 = true := by
  decide

/-- C8 (amended): inverse pairs are recorded only from `Invert`
directives: `identify_binaries` on `Invert{x, result}` records the pair
(making `are_inverse` return true), while `identify_binaries` on any
arithmetic gate leaves the inverse-pair map unchanged. -/
theorem C8_inverse_recording (s : BinarySolver) (x r : Witness) (a : Expression) :
    are_inverse (identify_binaries s (Gate.Directive (DirectiveK.Invert x r))) x r = true ∧
    (identify_binaries s (Gate.Arithmetic a)).invert_witness = s.invert_witness := by
  constructor
  · simp [identify_binaries, are_inverse, alist_get]
  · show (identify_booleans s a).invert_witness = s.invert_witness
    exact identify_booleans_invert s a

/-- C8 counterexample: scanning the arithmetic gate `x·y - 1 = 0` (or
`x·y = 0`) — one quadratic term, no linear terms — records nothing: the
solver state is unchanged and `are_inverse` stays false, refuting the
claim that such a gate records an inverse pair. -/
theorem C8_inverse_recording_counterexample :
    are_inverse (identify_binaries new (Gate.Arithmetic ⟨[(1, 1, 2)], [], -1⟩)) 1 2 = false ∧
    are_inverse (identify_binaries new (Gate.Arithmetic ⟨[(1, 1, 2)], [], 0⟩)) 1 2 = false ∧
    identify_binaries new (Gate.Arithmetic ⟨[(1, 1, 2)], [], -1⟩) = new := by
  decide

theorem solve_inverse_lookup (s : BinarySolver) (e : Expression) (m : WitnessMap)
    (w : Witness) :
    alist_get (solve_inverse s e m).2 w = alist_get m w ∨
      alist_get (solve_inverse s e m).2 w = some 0 := by
  rcases e with ⟨mul, lin, qc⟩
  rcases mul with _ | ⟨⟨c, w1, w2⟩, mrest⟩
  · left; rfl
  · rcases mrest with _ | ⟨t2, mrest2⟩
    · rcases lin with _ | ⟨l1, lrest⟩
      · by_cases hai : are_inverse s w1 w2
        · simp only [solve_inverse, hai, if_true]
          by_cases hq : (qc : F) = 0
          · rw [if_pos hq]
            by_cases hw2 : w = w2
            · right; simp [winsert, alist_get, hw2]
            · by_cases hw1 : w = w1
              · right; simp [winsert, alist_get, hw2, hw1]
              · left; simp [winsert, alist_get, hw2, hw1]
          · rw [if_neg hq]
            by_cases hq1 : (qc : F) = 1
            · rw [if_pos hq1]; left; rfl
            · rw [if_neg hq1]; left; rfl
        · left; simp [solve_inverse, hai]
      · left; rfl
    · left; rfl

/-- C9 (amended): the resolution routines are not read-only on the
witness map — they insert derived values directly into it — but the
only values they ever write are zeros: after `solve_booleans` (and in
particular after `solve_inverse`), every witness either keeps its
previous binding or is bound to 0. -/
theorem C9_writes_only_zeros (s : BinarySolver) (e : Expression) (m : WitnessMap)
    (w : Witness) :
    (alist_get (solve_booleans s e m).2 w = alist_get m w ∨
      alist_get (solve_booleans s e m).2 w = some 0) ∧
    (alist_get (solve_inverse s e m).2 w = alist_get m w ∨
      alist_get (solve_inverse s e m).2 w = some 0) := by
  refine ⟨?_, solve_inverse_lookup s e m w⟩
  have hsi := solve_inverse_lookup s e m w
  rcases h : solve_inverse s e m with ⟨r, m1⟩
  rw [h] at hsi
  cases r with
  | error er => simpa only [solve_booleans, h] using hsi
  | ok gr =>
    cases gr with
    | Resolved => simpa only [solve_booleans, h] using hsi
    | Skip =>
      simp only [solve_booleans, h]
      cases hb : is_binary s e with
      | none => exact hsi
      | some mx =>
        by_cases hlt : mx < modulus
        · by_cases hq : e.q_c = 0
          · simp only [hlt, hq, if_true]
            rw [assignZeros_lookup]
            by_cases hw : w ∈ e.linear_combinations.map Prod.snd
            · right; simp [hw]
            · simpa [hw] using hsi
          · simp only [hlt, hq, if_true, if_false]
            exact hsi
        · simp only [hlt, if_false]
          exact hsi
    | UnsupportedOpcode =>
      simp only [solve_booleans, h]
      cases hb : is_binary s e with
      | none => exact hsi
      | some mx =>
        by_cases hlt : mx < modulus
        · by_cases hq : e.q_c = 0
          · simp only [hlt, hq, if_true]
            rw [assignZeros_lookup]
            by_cases hw : w ∈ e.linear_combinations.map Prod.snd
            · right; simp [hw]
            · simpa [hw] using hsi
          · simp only [hlt, hq, if_true, if_false]
            exact hsi
        · simp only [hlt, if_false]
          exact hsi

/-- C9 counterexample: on a recorded inverse pair with the gate
`x·y = 0`, `solve_booleans` inserts bindings for witnesses 1 and 2 into
the witness map it was given: the map it hands back differs from the
(empty) input map, refuting the claim that the routines leave the map
unchanged and communicate only through their return status. -/
theorem C9_writes_only_zeros_counterexample :
    solve_booleans ⟨[], [(1, 2)], []⟩ ⟨[(1, 1, 2)], [], 0⟩ [] =
      (Except.ok GateResolution.Resolved, [(2, 0), (1, 0)]) ∧
    alist_get ([] : WitnessMap) 1 = none ∧
    alist_get ([(2, 0), (1, 0)] : WitnessMap) 1 = some 0 := by
  decide

theorem mulMax_eq (s : BinarySolver) (l : List (F × Witness × Witness)) (acc : ℕ)
    (h : ∀ t ∈ l, are_boolean s t.2.1 t.2.2 = true) :
    mulMax s l acc = some (acc + quadMagSum l) := by
  induction l generalizing acc with
  | nil => simp [mulMax, quadMagSum]
  | cons t rest ih =>
    rcases t with ⟨c, w1, w2⟩
    have h1 : are_boolean s w1 w2 = true := h _ (List.mem_cons_self _ _)
    have h2 : ∀ t ∈ rest, are_boolean s t.2.1 t.2.2 = true :=
      fun t ht => h t (List.mem_cons_of_mem _ ht)
    simp only [mulMax, h1, if_true]
    rw [ih _ h2]
    simp [quadMagSum, Nat.add_assoc]

theorem linMax_eq (s : BinarySolver) (l : List (F × Witness)) (acc : ℕ)
    (h : ∀ t ∈ l, (get_max_value s t.2).isSome = true) :
    linMax s l acc = some (acc + linBoundSum s l) := by
  induction l generalizing acc with
  | nil => simp [linMax, linBoundSum]
  | cons t rest ih =>
    rcases t with ⟨c, w⟩
    have h1 : (get_max_value s w).isSome = true := h _ (List.mem_cons_self _ _)
    have h2 : ∀ t ∈ rest, (get_max_value s t.2).isSome = true :=
      fun t ht => h t (List.mem_cons_of_mem _ ht)
    rcases hv : get_max_value s w with _ | v
    · rw [hv] at h1; simp at h1
    · simp only [linMax, hv]
      rw [ih _ h2]
      simp [linBoundSum, hv, Nat.add_assoc]

/-- C2 (amended): when every quadratic term passes `are_boolean` and
every linear witness has a known max value, `is_binary` returns `none`
exactly when the sum of the quadratic coefficient magnitudes and the
linear bounds — the constant term excluded — exceeds the field modulus,
and otherwise returns that sum plus the constant term's representative
(a value that may itself equal or exceed the modulus).  The
counterexample shows the constant term is not part of the overflow
check, contrary to the claim. -/
theorem C2_is_binary_bound (s : BinarySolver) (e : Expression)
    (hm : ∀ t ∈ e.mul_terms, are_boolean s t.2.1 t.2.2 = true)
    (hl : ∀ t ∈ e.linear_combinations, (get_max_value s t.2).isSome = true) :
    is_binary s e =
      if modulus < quadMagSum e.mul_terms + linBoundSum s e.linear_combinations then none
      else some (quadMagSum e.mul_terms + linBoundSum s e.linear_combinations + e.q_c.val) := by
  have h1 := mulMax_eq s e.mul_terms 0 hm
  have h2 := linMax_eq s e.linear_combinations (quadMagSum e.mul_terms) hl
  simp only [is_binary, h1, Nat.zero_add, h2, Nat.add_assoc]

theorem C2_is_binary_bound_witness :
    is_binary ⟨[1], [], []⟩ ⟨[], [(1, 1)], 5⟩ = some 6 := by
  have h := C2_is_binary_bound ⟨[1], [], []⟩ ⟨[], [(1, 1)], 5⟩ (by decide) (by decide)
  rw [h]
  decide

/-- C2 counterexample: with witnesses 1 and 2 recorded as an inverse
pair, the expression `-1·(w1·w2) + 2` has every quadratic term passing
`are_boolean` and no linear terms; the total bound including the
constant is `modulus + 1`, which exceeds the modulus, yet `is_binary`
returns `some (modulus + 1)` rather than `none` — the claim's overflow
condition (constant term included) does not match the code. -/
theorem C2_is_binary_bound_counterexample :
    are_boolean ⟨[], [(1, 2)], []⟩ 1 2 = true ∧
    modulus < quadMagSum [((-1 : F), (1 : Witness), (2 : Witness))] +
      linBoundSum ⟨[], [(1, 2)], []⟩ [] + ((2 : F)).val ∧
    is_binary ⟨[], [(1, 2)], []⟩ ⟨[(-1, 1, 2)], [], 2⟩ = some (modulus + 1) := by
  decide

theorem knownBoundSum_cons_known (s : BinarySolver) (c : F) (w : Witness) (v : ℕ)
    (l : List (F × Witness)) (hv : get_max_value s w = some v) :
    knownBoundSum s ((c, w) :: l) = v * c.val + knownBoundSum s l := by
  simp [knownBoundSum, List.filter_cons, hv]

theorem knownBoundSum_cons_unknown (s : BinarySolver) (c : F) (w : Witness)
    (l : List (F × Witness)) (hv : get_max_value s w = none) :
    knownBoundSum s ((c, w) :: l) = knownBoundSum s l := by
  simp [knownBoundSum, List.filter_cons, hv]

theorem scanLin_no_unknown (s : BinarySolver) (l : List (F × Witness))
    (h : l.filter (fun t => (get_max_value s t.2).isNone) = []) :
    ∀ acc x, scanLin s l acc x = (acc + knownBoundSum s l, x) := by
  induction l with
  | nil =>
    intro acc x
    simp [scanLin, knownBoundSum]
  | cons t rest ih =>
    intro acc x
    rcases t with ⟨c, w⟩
    rcases hv : get_max_value s w with _ | v
    · exfalso
      rw [List.filter_cons] at h
      simp [hv] at h
    · have hrest : rest.filter (fun t => (get_max_value s t.2).isNone) = [] := by
        rw [List.filter_cons] at h
        simpa [hv] using h
      simp only [scanLin, hv]
      rw [ih hrest]
      rw [knownBoundSum_cons_known s c w v rest hv]
      ring_nf

theorem scanLin_break (s : BinarySolver) (l : List (F × Witness))
    (h : l.filter (fun t => (get_max_value s t.2).isNone) ≠ []) :
    ∀ acc t, (scanLin s l acc (some t)).2 = none := by
  induction l with
  | nil =>
    exfalso
    exact h rfl
  | cons t0 rest ih =>
    intro acc t
    rcases t0 with ⟨c, w⟩
    rcases hv : get_max_value s w with _ | v
    · simp [scanLin, hv]
    · have hrest : rest.filter (fun t => (get_max_value s t.2).isNone) ≠ [] := by
        rw [List.filter_cons] at h
        simpa [hv] using h
      simp only [scanLin, hv]
      exact ih hrest _ _

theorem scanLin_one_unknown (s : BinarySolver) (l : List (F × Witness)) (ci : F)
    (wi : Witness)
    (h : l.filter (fun t => (get_max_value s t.2).isNone) = [(ci, wi)]) :
    ∀ acc, scanLin s l acc none = (acc + knownBoundSum s l, some (ci, wi)) := by
  induction l with
  | nil => simp at h
  | cons t rest ih =>
    intro acc
    rcases t with ⟨c, w⟩
    rcases hv : get_max_value s w with _ | v
    · rw [List.filter_cons] at h
      simp only [hv, Option.isNone_none, if_true] at h
      have hcw : (c, w) = (ci, wi) := (List.cons_eq_cons.mp h).1
      have hrest : rest.filter (fun t => (get_max_value s t.2).isNone) = [] :=
        (List.cons_eq_cons.mp h).2
      rcases Prod.mk.injEq .. ▸ hcw with ⟨rfl, rfl⟩
      simp only [scanLin, hv]
      rw [scanLin_no_unknown s rest hrest acc (some (c, w))]
      rw [knownBoundSum_cons_unknown s c w rest hv]
    · have hrest : rest.filter (fun t => (get_max_value s t.2).isNone) = [(ci, wi)] := by
        rw [List.filter_cons] at h
        simpa [hv] using h
      simp only [scanLin, hv]
      rw [ih hrest]
      rw [knownBoundSum_cons_known s c w v rest hv]
      ring_nf

theorem scanLin_many_unknown (s : BinarySolver) (l : List (F × Witness))
    (h : 2 ≤ (l.filter (fun t => (get_max_value s t.2).isNone)).length) :
    ∀ acc, (scanLin s l acc none).2 = none := by
  induction l with
  | nil => simp at h
  | cons t rest ih =>
    intro acc
    rcases t with ⟨c, w⟩
    rcases hv : get_max_value s w with _ | v
    · have hrest : rest.filter (fun t => (get_max_value s t.2).isNone) ≠ [] := by
        rw [List.filter_cons] at h
        simp only [hv, Option.isNone_none, if_true] at h
        intro hnil
        rw [hnil] at h
        simp at h
      simp only [scanLin, hv]
      exact scanLin_break s rest hrest acc (c, w)
    · have hrest : 2 ≤ (rest.filter (fun t => (get_max_value s t.2).isNone)).length := by
        rw [List.filter_cons] at h
        simpa [hv] using h
      simp only [scanLin, hv]
      exact ih hrest _

/-- C4 (amended): for an expression with no quadratic terms and more
than two linear terms, with exactly one linear witness of unknown max
value (the intermediate): when the constant plus the other terms'
bounds is below the modulus and the intermediate's coefficient is minus
one, `identify_booleans` records that sum as the intermediate's
positive bound; in every other such case it marks the intermediate as
boolean, regardless of how tight the bound is (the counterexample shows
this also happens when the sum reaches the modulus, where the claim
says nothing is recorded).  With zero unknown witnesses, or with two or
more, nothing is recorded. -/
theorem C4_intermediate_bound (s : BinarySolver) (a : Expression)
    (hm : a.mul_terms = []) (hl : 2 < a.linear_combinations.length) :
    (∀ ci wi,
      a.linear_combinations.filter (fun t => (get_max_value s t.2).isNone) = [(ci, wi)] →
      ((a.q_c.val + knownBoundSum s a.linear_combinations < modulus ∧ ci = -1) →
        identify_booleans s a = { s with positive_witness :=
          (wi, a.q_c.val + knownBoundSum s a.linear_combinations) :: s.positive_witness }) ∧
      (¬ (a.q_c.val + knownBoundSum s a.linear_combinations < modulus ∧ ci = -1) →
        identify_booleans s a =
          { s with binary_witness := insertSet wi s.binary_witness })) ∧
    (a.linear_combinations.filter (fun t => (get_max_value s t.2).isNone) = [] →
      identify_booleans s a = s) ∧
    (2 ≤ (a.linear_combinations.filter (fun t => (get_max_value s t.2).isNone)).length →
      identify_booleans s a = s) := by
  rcases a with ⟨mul, lin, qc⟩
  simp only at hm hl ⊢
  subst hm
  rcases lin with _ | ⟨t1, lin1⟩
  · simp at hl
  rcases lin1 with _ | ⟨t2, lin2⟩
  · simp at hl
  rcases lin2 with _ | ⟨t3, lin3⟩
  · simp at hl
  have hlen : (t1 :: t2 :: t3 :: lin3).length > 2 := by
    simp [List.length_cons]
  refine ⟨?_, ?_, ?_⟩
  · intro ci wi hu
    have hscan := scanLin_one_unknown s (t1 :: t2 :: t3 :: lin3) ci wi hu (ZMod.val qc)
    constructor
    · intro hcond
      have hib : ibStep s ⟨[], t1 :: t2 :: t3 :: lin3, qc⟩ =
          ({ s with positive_witness :=
            (wi, ZMod.val qc + knownBoundSum s (t1 :: t2 :: t3 :: lin3)) ::
              s.positive_witness }, none) := by
        simp only [ibStep]
        rw [if_pos hlen, hscan]
        exact if_pos hcond
      simp [identify_booleans, hib]
    · intro hcond
      have hib : ibStep s ⟨[], t1 :: t2 :: t3 :: lin3, qc⟩ = (s, some wi) := by
        simp only [ibStep]
        rw [if_pos hlen, hscan]
        exact if_neg hcond
      simp [identify_booleans, hib]
  · intro hu
    have hscan := scanLin_no_unknown s (t1 :: t2 :: t3 :: lin3) hu (ZMod.val qc) none
    have hib : ibStep s ⟨[], t1 :: t2 :: t3 :: lin3, qc⟩ = (s, none) := by
      simp only [ibStep]
      rw [if_pos hlen, hscan]
    simp [identify_booleans, hib]
  · intro hu
    have hscan := scanLin_many_unknown s (t1 :: t2 :: t3 :: lin3) hu (ZMod.val qc)
    have hib : ibStep s ⟨[], t1 :: t2 :: t3 :: lin3, qc⟩ = (s, none) := by
      simp only [ibStep]
      rcases hsc : scanLin s (t1 :: t2 :: t3 :: lin3) (ZMod.val qc) none with ⟨mx, x⟩
      rw [hsc] at hscan
      have hx : x = none := hscan
      subst hx
      rw [if_pos hlen]
    simp [identify_booleans, hib]

theorem C4_intermediate_bound_witness :
    identify_booleans ⟨[1, 2], [], []⟩ ⟨[], [(1, 1), (1, 2), (-1, 3)], 0⟩ =
      ⟨[1, 2], [], [(3, 2)]⟩ := by
  have h := C4_intermediate_bound ⟨[1, 2], [], []⟩ ⟨[], [(1, 1), (1, 2), (-1, 3)], 0⟩
    rfl (by decide)
  have h2 := (h.1 (-1) 3 (by decide)).1 ⟨by decide, rfl⟩
  rw [h2]
  decide

/-- C4 counterexample: with booleans 1 and 2 and the expression
`-w1 - w2 - w3 = 0` (three linear terms, `w3` the only unknown, all
coefficients `-1`), the computed sum `2·(modulus−1)` reaches the
modulus, so per the claim nothing should be recorded — yet
`identify_booleans` marks the intermediate `w3` as boolean. -/
theorem C4_intermediate_bound_counterexample :
    modulus ≤ ZMod.val (0 : F) +
      knownBoundSum ⟨[1, 2], [], []⟩ [(-1, 1), (-1, 2), (-1, 3)] ∧
    ([((-1 : F), (1 : Witness)), (-1, 2), (-1, 3)].filter
      (fun t => (get_max_value ⟨[1, 2], [], []⟩ t.2).isNone)) = [(-1, 3)] ∧
    is_boolean (identify_booleans ⟨[1, 2], [], []⟩
      ⟨[], [(-1, 1), (-1, 2), (-1, 3)], 0⟩) 3 = true ∧
    identify_booleans ⟨[1, 2], [], []⟩ ⟨[], [(-1, 1), (-1, 2), (-1, 3)], 0⟩ ≠
      ⟨[1, 2], [], []⟩ := by
  decide
